import Mathlib

/-!
Shallow embedding of `index_builder.py` (class `IndexBuilder`): tokenizer,
per-product ingestion into five indexes, batch processing with per-record
error recovery, and the AND-semantics title search.

Modelling conventions:
* JSON-like dynamic Python values are the inductive type `Val`; truthiness
  follows Python (`""`, `0`, empty list/dict and `None` are falsy).
* Python dicts are association lists with first-match lookup.
* Numeric values are rationals; Python `round(x, 2)` is idealized as exact
  rational round-half-to-even at two decimal places.
* A Python statement that raises is modelled by `Option`/a `false` flag,
  carrying the state that had been built up to the raise point.
* Character-level operations model the ASCII fragment of Python `str.lower`,
  `re.sub` with the pattern keeping `a`-`z`, `0`-`9` and whitespace, and
  `str.split()` on whitespace runs.
-/

/-- A dynamic (JSON-like) Python value. -/
inductive Val where
  | vnone : Val
  | vnum : ℚ → Val
  | vstr : String → Val
  | vlist : List Val → Val
  | vdict : List (String × Val) → Val

mutual

/-- Decidable equality on dynamic values. -/
def Val.decEq : (a b : Val) → Decidable (a = b)
  | .vnone, .vnone => .isTrue rfl
  | .vnum a, .vnum b =>
    match decEq a b with
    | .isTrue h => .isTrue (by rw [h])
    | .isFalse h => .isFalse (fun e => by cases e; exact h rfl)
  | .vstr a, .vstr b =>
    match decEq a b with
    | .isTrue h => .isTrue (by rw [h])
    | .isFalse h => .isFalse (fun e => by cases e; exact h rfl)
  | .vlist as, .vlist bs =>
    match decEqValList as bs with
    | .isTrue h => .isTrue (by rw [h])
    | .isFalse h => .isFalse (fun e => by cases e; exact h rfl)
  | .vdict as, .vdict bs =>
    match decEqValFields as bs with
    | .isTrue h => .isTrue (by rw [h])
    | .isFalse h => .isFalse (fun e => by cases e; exact h rfl)
  | .vnone, .vnum _ | .vnone, .vstr _ | .vnone, .vlist _ | .vnone, .vdict _
  | .vnum _, .vnone | .vnum _, .vstr _ | .vnum _, .vlist _ | .vnum _, .vdict _
  | .vstr _, .vnone | .vstr _, .vnum _ | .vstr _, .vlist _ | .vstr _, .vdict _
  | .vlist _, .vnone | .vlist _, .vnum _ | .vlist _, .vstr _ | .vlist _, .vdict _
  | .vdict _, .vnone | .vdict _, .vnum _ | .vdict _, .vstr _ | .vdict _, .vlist _ =>
    .isFalse (fun e => by cases e)

/-- Decidable equality on lists of dynamic values. -/
def decEqValList : (as bs : List Val) → Decidable (as = bs)
  | [], [] => .isTrue rfl
  | a :: as, b :: bs =>
    match Val.decEq a b, decEqValList as bs with
    | .isTrue h1, .isTrue h2 => .isTrue (by rw [h1, h2])
    | .isFalse h1, _ => .isFalse (fun e => by cases e; exact h1 rfl)
    | _, .isFalse h2 => .isFalse (fun e => by cases e; exact h2 rfl)
  | [], _ :: _ => .isFalse (fun e => by cases e)
  | _ :: _, [] => .isFalse (fun e => by cases e)

/-- Decidable equality on string-keyed association lists of dynamic values. -/
def decEqValFields : (as bs : List (String × Val)) → Decidable (as = bs)
  | [], [] => .isTrue rfl
  | (k, v) :: as, (l, w) :: bs =>
    match decEq k l, Val.decEq v w, decEqValFields as bs with
    | .isTrue h1, .isTrue h2, .isTrue h3 => .isTrue (by rw [h1, h2, h3])
    | .isFalse h1, _, _ => .isFalse (fun e => by cases e; exact h1 rfl)
    | _, .isFalse h2, _ => .isFalse (fun e => by cases e; exact h2 rfl)
    | _, _, .isFalse h3 => .isFalse (fun e => by cases e; exact h3 rfl)
  | [], _ :: _ => .isFalse (fun e => by cases e)
  | _ :: _, [] => .isFalse (fun e => by cases e)

end

instance : DecidableEq Val := Val.decEq

/-- Python truthiness of a value. -/
def Val.truthy : Val → Bool
  | .vnone => false
  | .vnum q => q != 0
  | .vstr s => !(s == "")
  | .vlist xs => !xs.isEmpty
  | .vdict fs => !fs.isEmpty

/-- Python `dict.get(key, default)`: first-match lookup in an association list. -/
def dictGet : List (String × Val) → String → Val → Val
  | [], _, d => d
  | (k, v) :: fs, key, d => if k = key then v else dictGet fs key d

/-- The stopword set of `IndexBuilder.STOPWORDS`, in source order. -/
def STOPWORDS : List String :=
  ["the", "a", "an", "and", "or", "but", "in", "on", "at", "to", "for",
   "of", "with", "by", "from", "is", "are", "am", "be", "been", "being",
   "that", "this", "these", "those", "i", "you", "he", "she", "it", "we", "they"]

/-- Whitespace characters recognised by the model (ASCII fragment of
Python's `\s` and `str.split()`). -/
def isPyWs (c : Char) : Bool :=
  c = ' ' || c = '\t' || c = '\n' || c = '\r' || c = '\x0b' || c = '\x0c'

/-- ASCII fragment of Python `str.lower` on a single character. -/
def pyLower (c : Char) : Char :=
  if 'A' ≤ c && c ≤ 'Z' then Char.ofNat (c.toNat + 32) else c

/-- ASCII lowercase letters and digits: the characters kept by the
substitution `re.sub(pattern, ' ', text)` besides whitespace. -/
def isTokenChar (c : Char) : Bool :=
  ('a' ≤ c && c ≤ 'z') || ('0' ≤ c && c ≤ '9')

/-- One character of the substitution step: keep lowercase alphanumerics and
whitespace, replace everything else by a space. -/
def scrubChar (c : Char) : Char :=
  if isTokenChar c || isPyWs c then c else ' '

/-- Python `str.split()`: split on whitespace runs, dropping empty fragments.
The accumulator holds the current fragment reversed. -/
def splitWsAux : List Char → List Char → List String
  | [], acc => if acc.isEmpty then [] else [String.mk acc.reverse]
  | c :: cs, acc =>
    if isPyWs c then
      if acc.isEmpty then splitWsAux cs [] else String.mk acc.reverse :: splitWsAux cs []
    else splitWsAux cs (c :: acc)

/-- Python `str.split()` with no separator argument. -/
def pySplit (cs : List Char) : List String := splitWsAux cs []

/-- Source `IndexBuilder.tokenize`: lowercase, keep only alphanumerics and spaces,
split on whitespace, drop empties and stopwords. -/
def tokenize (text : String) : List String :=
  (pySplit ((text.data.map pyLower).map scrubChar)).filter
    (fun t => !(t == "") && !(STOPWORDS.contains t))

/-- Python `str.lower` on a whole string (ASCII fragment). -/
def pyLowerStr (s : String) : String := String.mk (s.data.map pyLower)

/-- Round half to even on rationals (documented rounding rule for the model
of Python `round`). -/
def roundHalfEven (q : ℚ) : ℤ :=
  let f := ⌊q⌋
  if q - (f : ℚ) < 1 / 2 then f
  else if (1 : ℚ) / 2 < q - (f : ℚ) then f + 1
  else if f % 2 = 0 then f else f + 1

/-- Model of Python `round(x, 2)`: round to two decimal places. -/
def round2 (q : ℚ) : ℚ := (roundHalfEven (q * 100) : ℚ) / 100

/-- Python `key in container` for the shapes reachable here; `none` models a
raised `TypeError` (`in` on a number or `None`). On a string it is the
substring test, on a list a membership test. -/
def hasKey : Val → String → Option Bool
  | .vdict fs, k => some (fs.any (fun kv => kv.1 == k))
  | .vlist xs, k => some (xs.contains (.vstr k))
  | .vstr s, k => some (decide (k.data <:+: s.data))
  | .vnone, _ => none
  | .vnum _, _ => none

/-- Python `container[key]` with a string key; `none` models a raise
(`TypeError` on non-dicts, `KeyError` on a missing key). -/
def getItem : Val → String → Option Val
  | .vdict fs, k =>
    match fs.find? (fun kv => kv.1 == k) with
    | some kv => some kv.2
    | none => none
  | _, _ => none

/-- A positional index: token, then document key, to the ordered position
list (`defaultdict(lambda: defaultdict(list))`; absent entries read `[]`). -/
def PosIndex : Type := String → Val → List Nat

/-- A categorical index: token to the collection of document keys
(`defaultdict(set)`); the set is modelled as a duplicate-free list. -/
def CatIndex : Type := String → List Val

/-- Review statistics record stored in `reviews_index`. -/
structure ReviewStats where
  total_reviews : Nat
  mean_mark : ℚ
  last_rating : ℚ
deriving DecidableEq

/-- The five index structures owned by an `IndexBuilder` instance. -/
structure IndexState where
  title_index : PosIndex
  description_index : PosIndex
  brand_index : CatIndex
  origin_index : CatIndex
  reviews_index : Val → Option ReviewStats

/-- Fresh builder state: all five indexes empty. -/
def emptyState : IndexState where
  title_index := fun _ _ => []
  description_index := fun _ _ => []
  brand_index := fun _ => []
  origin_index := fun _ => []
  reviews_index := fun _ => none

/-- Point update of a positional index at one (token, document) cell. -/
def updatePos (idx : PosIndex) (t : String) (u : Val) (ps : List Nat) : PosIndex :=
  fun t' u' => if t' = t ∧ u' = u then ps else idx t' u'

/-- The loop of `_index_text`: `for position, token in enumerate(tokens): if
token: index[token][url].append(position)`, with `p` the running position. -/
def indexTokensFrom (u : Val) : List String → Nat → PosIndex → PosIndex
  | [], _, idx => idx
  | t :: ts, p, idx =>
    indexTokensFrom u ts (p + 1)
      (if t ≠ "" then updatePos idx t u (idx t u ++ [p]) else idx)

/-- Source `IndexBuilder._index_text`: tokenize and append each token's position. -/
def _index_text (text : String) (u : Val) (idx : PosIndex) : PosIndex :=
  indexTokensFrom u (tokenize text) 0 idx

/-- Python `set.add` on a duplicate-free list model of a Python set. -/
def addDoc (l : List Val) (u : Val) : List Val := if u ∈ l then l else l ++ [u]

/-- One categorical insertion `index[token].add(url)`. -/
def addCat (idx : CatIndex) (t : String) (u : Val) : CatIndex :=
  fun t' => if t' = t then addDoc (idx t') u else idx t'

/-- The loop `for token in tokens: index[token].add(url)`. -/
def addCatTokens (idx : CatIndex) (ts : List String) (u : Val) : CatIndex :=
  ts.foldl (fun i t => addCat i t u) idx

/-- Processing of the `title` / `description` field value: a falsy value is
skipped, a truthy string is indexed, a truthy non-string raises inside
`tokenize` (modelled by `none`). -/
def procText (v : Val) (u : Val) (idx : PosIndex) : Option PosIndex :=
  if v.truthy then
    match v with
    | .vstr s => some (_index_text s u idx)
    | _ => none
  else some idx

/-- Processing of one categorical feature (`brand` / `made in`): mirror of
the `if key in features: value = features[key]; if isinstance(value, str)
and value: ...` block. `none` models a raise in `in` or the subscript. -/
def procCat (features : Val) (key : String) (u : Val) (idx : CatIndex) :
    Option CatIndex :=
  match hasKey features key with
  | none => none
  | some false => some idx
  | some true =>
    match getItem features key with
    | none => none
    | some v =>
      match v with
      | .vstr s => if s ≠ "" then some (addCatTokens idx (tokenize s) u) else some idx
      | _ => some idx

/-- Python `review.get('rating', 0)`; `none` models the raise when a review element
is not a dict. -/
def ratingOf : Val → Option Val
  | .vdict fs => some (dictGet fs "rating" (.vnum 0))
  | _ => none

/-- The list comprehension `[review.get('rating', 0) for review in reviews]`,
raising on the first malformed element. -/
def ratingsOf : List Val → Option (List Val)
  | [] => some []
  | r :: rs =>
    match ratingOf r with
    | none => none
    | some v =>
      match ratingsOf rs with
      | none => none
      | some vs => some (v :: vs)

/-- Python `sum(ratings)` succeeds only when every rating is numeric; `none` models
the `TypeError` raise on a non-numeric rating. -/
def asNums : List Val → Option (List ℚ)
  | [] => some []
  | v :: vs =>
    match v with
    | .vnum q =>
      match asNums vs with
      | none => none
      | some qs => some (q :: qs)
    | _ => none

/-- The review statistics computed for a non-empty reviews list; `none`
models a raise while extracting or summing the ratings. -/
def reviewStatsOf (rs : List Val) : Option ReviewStats :=
  match ratingsOf rs with
  | none => none
  | some vs =>
    match asNums vs with
    | none => none
    | some qs =>
      some { total_reviews := rs.length
             mean_mark := if vs.isEmpty then 0 else round2 (qs.sum / (qs.length : ℚ))
             last_rating := (qs.getLast?).getD 0 }

/-- Write the review statistics record for one document key. -/
def writeReview (st : IndexState) (u : Val) (s : ReviewStats) : IndexState :=
  { st with reviews_index := fun u' => if u' = u then some s else st.reviews_index u' }

/-- The reviews block of `_process_product`: a falsy reviews value writes the
zero record, a truthy list aggregates (raising on malformed elements), a
truthy non-list raises while iterating. -/
def procReviews (fs : List (String × Val)) (u : Val) (st : IndexState) :
    Option IndexState :=
  let reviews := dictGet fs "product_reviews" (.vlist [])
  if reviews.truthy then
    match reviews with
    | .vlist rs =>
      match reviewStatsOf rs with
      | none => none
      | some s => some (writeReview st u s)
    | _ => none
  else some (writeReview st u ⟨0, 0, 0⟩)

/-- Source `IndexBuilder._process_product`: returns the updated state and `true`,
or — when a statement raises — the state built up to the raise point and
`false` (the caller catches the exception). -/
def _process_product (p : Val) (st : IndexState) : IndexState × Bool :=
  match p with
  | .vdict fs =>
    let url := dictGet fs "url" (.vstr "")
    if url.truthy then
      match procText (dictGet fs "title" (.vstr "")) url st.title_index with
      | none => (st, false)
      | some ti =>
        let st1 := { st with title_index := ti }
        match procText (dictGet fs "description" (.vstr "")) url st1.description_index with
        | none => (st1, false)
        | some di =>
          let st2 := { st1 with description_index := di }
          let features := dictGet fs "product_features" (.vdict [])
          match procCat features "brand" url st2.brand_index with
          | none => (st2, false)
          | some bi =>
            let st3 := { st2 with brand_index := bi }
            match procCat features "made in" url st3.origin_index with
            | none => (st3, false)
            | some oi =>
              let st4 := { st3 with origin_index := oi }
              match procReviews fs url st4 with
              | none => (st4, false)
              | some st5 => (st5, true)
    else (st, true)
  | _ => (st, false)

/-- The per-line body of `process_jsonl`: the exception from
`_process_product` is caught and the state built so far is kept. -/
def processRecord (st : IndexState) (p : Val) : IndexState := (_process_product p st).1

/-- Source `IndexBuilder.process_jsonl` over a list of decoded records (decoding and
file I/O are outside the model; a line that fails to decode contributes no
record). -/
def process_jsonl (recs : List Val) (st : IndexState) : IndexState :=
  recs.foldl processRecord st

/-- The loop of `search_title` on the running candidate set (`None` before
the first token is looked up). -/
def searchLoop (d : String → Option (List Val)) :
    List String → Option (Finset Val) → Finset Val
  | [], res => match res with | some r => r | none => ∅
  | t :: ts, res =>
    match d t with
    | none => ∅
    | some ps =>
      searchLoop d ts
        (some (match res with
               | none => ps.toFinset
               | some r => r ∩ ps.toFinset))

/-- Source `IndexBuilder.search_title`: the loaded index is a map from token to the
postings entry's document keys; the result is the set of returned URLs
(Python returns them as a list in unspecified set order). -/
def search_title (q : String) (d : String → Option (List Val)) : Finset Val :=
  let tokens := tokenize q
  if tokens.isEmpty then ∅ else searchLoop d tokens none

/-- Positions (counting from `p`) at which token `t` occurs in a token
list. -/
def occFrom (t : String) : List String → Nat → List Nat
  | [], _ => []
  | x :: xs, p => (if x = t then [p] else []) ++ occFrom t xs (p + 1)

/-- Zero-based positions at which token `t` occurs in a token list. -/
def occPositions (t : String) (toks : List String) : List Nat := occFrom t toks 0

/-- Whether the `title` / `description` block runs without raising on this
field value. -/
def textOk (v : Val) : Bool :=
  if v.truthy then (match v with | .vstr _ => true | _ => false) else true

/-- Whether one categorical feature block runs without raising. -/
def catOk (features : Val) (key : String) : Bool :=
  match hasKey features key with
  | none => false
  | some false => true
  | some true => (getItem features key).isSome

/-- Whether the reviews block runs without raising on this field value. -/
def revOk (v : Val) : Bool :=
  if v.truthy then
    (match v with | .vlist rs => (reviewStatsOf rs).isSome | _ => false)
  else true

/-- Whether `_process_product` runs to completion on this record without
raising (depends only on the record, not on the index state). -/
def recOk : Val → Bool
  | .vdict fs =>
    let url := dictGet fs "url" (.vstr "")
    !url.truthy ||
      (textOk (dictGet fs "title" (.vstr "")) &&
       textOk (dictGet fs "description" (.vstr "")) &&
       (let features := dictGet fs "product_features" (.vdict [])
        catOk features "brand" && catOk features "made in") &&
       revOk (dictGet fs "product_reviews" (.vlist [])))
  | _ => false

/-- The `url` field of a record (the default empty string when absent or the
record is not a dict). -/
def urlOf : Val → Val
  | .vdict fs => dictGet fs "url" (.vstr "")
  | _ => .vstr ""

/-- ASCII letter (either case). -/
def isAsciiLetter (c : Char) : Bool := ('A' ≤ c && c ≤ 'Z') || ('a' ≤ c && c ≤ 'z')

/-- ASCII digit. -/
def isAsciiDigit (c : Char) : Bool := '0' ≤ c && c ≤ '9'

/-- Replacement step as worded by the specification: a character that is not
an ASCII letter, ASCII digit, or whitespace becomes a space. -/
def specReplaceChar (c : Char) : Char :=
  if isAsciiLetter c || isAsciiDigit c || isPyWs c then c else ' '

/-- Tokenizer as worded by the specification: lowercase; replace every
character that is not an ASCII letter, ASCII digit, or whitespace with a
space; split on whitespace runs; drop empty fragments; drop stopwords. -/
def specTokenize (text : String) : List String :=
  (((pySplit ((text.data.map pyLower).map specReplaceChar)).filter
    (fun t => !(t == ""))).filter (fun t => !(STOPWORDS.contains t)))

/-- Token `t` has an entry somewhere in the four token-keyed indexes. -/
def keyUsed (st : IndexState) (t : String) : Prop :=
  (∃ u, st.title_index t u ≠ []) ∨ (∃ u, st.description_index t u ≠ []) ∨
    st.brand_index t ≠ [] ∨ st.origin_index t ≠ []

/-- A canonical token: non-empty, lowercase-alphanumeric only, and not a
stopword. -/
def canonicalTok (t : String) : Prop :=
  t ≠ "" ∧ t ∉ STOPWORDS ∧ ∀ c ∈ t.data, isTokenChar c = true

/-- A review record carrying an optional numeric rating (absent field means
the ingestor's default 0 applies). -/
def mkReview (o : Option ℚ) : Val :=
  Val.vdict (match o with | some q => [("rating", Val.vnum q)] | none => [])

theorem char_ofNat_toNat (n : Nat) (h : n.isValidChar) : (Char.ofNat n).toNat = n := by
  unfold Char.ofNat
  rw [dif_pos h]
  rfl

theorem pyLower_mem_lower (c : Char) (h1 : 'A' ≤ c) (h2 : c ≤ 'Z') :
    97 ≤ (pyLower c).toNat ∧ (pyLower c).toNat ≤ 122 := by
  have hn1 : 65 ≤ c.toNat := h1
  have hn2 : c.toNat ≤ 90 := h2
  have hv : (c.toNat + 32).isValidChar := Or.inl (by omega)
  have ht : (Char.ofNat (c.toNat + 32)).toNat = c.toNat + 32 := char_ofNat_toNat _ hv
  have hp : pyLower c = Char.ofNat (c.toNat + 32) := by simp [pyLower, h1, h2]
  rw [hp, ht]
  omega

theorem pyLower_not_upper (c : Char) : ¬('A' ≤ pyLower c ∧ pyLower c ≤ 'Z') := by
  by_cases h1 : 'A' ≤ c
  · by_cases h2 : c ≤ 'Z'
    · have hr := pyLower_mem_lower c h1 h2
      intro hc
      have hb : (pyLower c).toNat ≤ 90 := hc.2
      omega
    · have hp : pyLower c = c := by simp [pyLower, h2]
      intro hc
      rw [hp] at hc
      exact h2 hc.2
  · have hp : pyLower c = c := by simp [pyLower, h1]
    intro hc
    rw [hp] at hc
    exact h1 hc.1

theorem not_upper_decide_false (d : Char) (h : ¬('A' ≤ d ∧ d ≤ 'Z')) :
    (decide ('A' ≤ d) && decide (d ≤ 'Z')) = false := by
  by_cases h1 : 'A' ≤ d
  · by_cases h2 : d ≤ 'Z'
    · exact absurd ⟨h1, h2⟩ h
    · simp [h2]
  · simp [h1]

theorem pyLower_eq_self (d : Char) (h : ¬('A' ≤ d ∧ d ≤ 'Z')) : pyLower d = d := by
  unfold pyLower
  rw [not_upper_decide_false d h]
  rfl

theorem pyLower_idem (c : Char) : pyLower (pyLower c) = pyLower c :=
  pyLower_eq_self _ (pyLower_not_upper c)

theorem scrubChar_pyLower (c : Char) :
    scrubChar (pyLower c) = specReplaceChar (pyLower c) := by
  have hnU := not_upper_decide_false _ (pyLower_not_upper c)
  have hcond : (isAsciiLetter (pyLower c) || isAsciiDigit (pyLower c))
      = isTokenChar (pyLower c) := by
    simp only [isAsciiLetter, isAsciiDigit, isTokenChar, hnU, Bool.false_or]
  simp only [scrubChar, specReplaceChar, Bool.or_assoc]
  rw [← hcond]
  rw [Bool.or_assoc]

theorem tokenize_map_pyLower (s : String) :
    tokenize (pyLowerStr s) = tokenize s := by
  unfold tokenize pyLowerStr
  have h2 : (String.mk (s.data.map pyLower)).data.map pyLower = s.data.map pyLower := by
    show (s.data.map pyLower).map pyLower = s.data.map pyLower
    rw [List.map_map]
    refine List.map_congr_left ?_
    intro c _
    exact pyLower_idem c
  rw [h2]

theorem tokenize_eq_specTokenize (s : String) : tokenize s = specTokenize s := by
  unfold tokenize specTokenize
  have hmap : (s.data.map pyLower).map scrubChar = (s.data.map pyLower).map specReplaceChar := by
    rw [List.map_map, List.map_map]
    refine List.map_congr_left ?_
    intro c _
    exact scrubChar_pyLower c
  rw [hmap, List.filter_filter]
  exact List.filter_congr (fun a _ => Bool.and_comm _ _)

theorem isTokenChar_not_upper (c : Char) (h : isTokenChar c = true) :
    ¬('A' ≤ c ∧ c ≤ 'Z') := by
  have h' : ('a' ≤ c ∧ c ≤ 'z') ∨ ('0' ≤ c ∧ c ≤ '9') := by
    simpa [isTokenChar, decide_eq_true_eq] using h
  intro hc
  have hA : 65 ≤ c.toNat := hc.1
  have hZ : c.toNat ≤ 90 := hc.2
  rcases h' with ⟨h1, h2⟩ | ⟨h1, h2⟩
  · have : 97 ≤ c.toNat := h1
    omega
  · have : c.toNat ≤ 57 := h2
    omega

theorem isTokenChar_not_ws (c : Char) (h : isTokenChar c = true) :
    isPyWs c = false := by
  have h' : ('a' ≤ c ∧ c ≤ 'z') ∨ ('0' ≤ c ∧ c ≤ '9') := by
    simpa [isTokenChar, decide_eq_true_eq] using h
  by_contra hw
  have hw' : isPyWs c = true := by
    cases hys : isPyWs c
    · exact absurd hys hw
    · rfl
  have htn : c.toNat ≤ 32 := by
    simp only [isPyWs, Bool.or_eq_true, decide_eq_true_eq] at hw'
    obtain ((((h | h) | h) | h) | h) | h := hw' <;> subst h <;> decide
  rcases h' with ⟨h1, _⟩ | ⟨h1, _⟩
  · have : 97 ≤ c.toNat := h1
    omega
  · have : 48 ≤ c.toNat := h1
    omega

theorem pyLower_tokenChar (c : Char) (h : isTokenChar c = true) : pyLower c = c :=
  pyLower_eq_self c (isTokenChar_not_upper c h)

theorem scrubChar_tokenChar (c : Char) (h : isTokenChar c = true) : scrubChar c = c := by
  unfold scrubChar
  rw [h]
  rfl

theorem splitWsAux_no_ws (cs : List Char) (h : ∀ c ∈ cs, isPyWs c = false) :
    ∀ acc : List Char, splitWsAux cs acc =
      if (acc.reverse ++ cs).isEmpty then [] else [String.mk (acc.reverse ++ cs)] := by
  induction cs with
  | nil =>
    intro acc
    simp [splitWsAux]
  | cons c cs ih =>
    intro acc
    have hc : isPyWs c = false := h c (List.mem_cons_self c cs)
    have hrest : ∀ x ∈ cs, isPyWs x = false := fun x hx => h x (List.mem_cons_of_mem c hx)
    rw [splitWsAux, hc]
    rw [ih hrest (c :: acc)]
    simp

theorem string_data_ne_nil (t : String) (h : t ≠ "") : t.data ≠ [] := by
  intro h0
  exact h (String.ext h0)

theorem tokenize_canonical (t : String) (hne : t ≠ "")
    (hc : ∀ c ∈ t.data, isTokenChar c = true) :
    tokenize t = if t ∈ STOPWORDS then [] else [t] := by
  unfold tokenize
  have hlow : t.data.map pyLower = t.data := by
    have h1 : t.data.map pyLower = t.data.map id :=
      List.map_congr_left (fun c hcm => pyLower_tokenChar c (hc c hcm))
    rw [h1, List.map_id]
  rw [hlow]
  have hscrub : t.data.map scrubChar = t.data := by
    have h1 : t.data.map scrubChar = t.data.map id :=
      List.map_congr_left (fun c hcm => scrubChar_tokenChar c (hc c hcm))
    rw [h1, List.map_id]
  rw [hscrub]
  have hnws : ∀ c ∈ t.data, isPyWs c = false :=
    fun c hcm => isTokenChar_not_ws c (hc c hcm)
  unfold pySplit
  rw [splitWsAux_no_ws t.data hnws []]
  have hdne : t.data ≠ [] := string_data_ne_nil t hne
  simp only [List.reverse_nil, List.nil_append]
  rw [if_neg (by simpa [List.isEmpty_iff] using hdne)]
  have hmk : String.mk t.data = t := rfl
  rw [hmk]
  have hbeq : (t == "") = false := by
    simp [hne]
  by_cases hs : t ∈ STOPWORDS
  · rw [if_pos hs]
    simp [List.filter, hbeq, hs]
  · rw [if_neg hs]
    simp [List.filter, hbeq, hs]

theorem scrubChar_ws_or_token (d : Char) :
    isPyWs (scrubChar d) = true ∨ isTokenChar (scrubChar d) = true := by
  unfold scrubChar
  by_cases h1 : isTokenChar d = true
  · right
    simp [h1]
  · by_cases h2 : isPyWs d = true
    · left
      simp [h1, h2]
    · left
      have h1' : isTokenChar d = false := by
        cases h : isTokenChar d
        · rfl
        · exact absurd h h1
      have h2' : isPyWs d = false := by
        cases h : isPyWs d
        · rfl
        · exact absurd h h2
      rw [h1', h2']
      simp [isPyWs]

theorem splitWsAux_chars (cs : List Char)
    (hcs : ∀ c ∈ cs, isPyWs c = true ∨ isTokenChar c = true) :
    ∀ acc : List Char, (∀ c ∈ acc, isTokenChar c = true) →
      ∀ t ∈ splitWsAux cs acc, t.data ≠ [] ∧ ∀ c ∈ t.data, isTokenChar c = true := by
  induction cs with
  | nil =>
    intro acc hacc t ht
    by_cases he : acc.isEmpty
    · rw [splitWsAux, if_pos he] at ht
      exact absurd ht (List.not_mem_nil t)
    · rw [splitWsAux, if_neg he] at ht
      have ht' : t = String.mk acc.reverse := List.mem_singleton.mp ht
      subst ht'
      refine ⟨?_, ?_⟩
      · show acc.reverse ≠ []
        simpa [List.isEmpty_iff] using he
      · intro c hcm
        exact hacc c (List.mem_reverse.mp hcm)
  | cons c cs ih =>
    intro acc hacc t ht
    have hcs' : ∀ x ∈ cs, isPyWs x = true ∨ isTokenChar x = true :=
      fun x hx => hcs x (List.mem_cons_of_mem c hx)
    rcases hcs c (List.mem_cons_self c cs) with hw | htk
    · rw [splitWsAux, hw] at ht
      by_cases he : acc.isEmpty
      · rw [if_pos he] at ht
        exact ih hcs' [] (by intro x hx; exact absurd hx (List.not_mem_nil x)) t ht
      · rw [if_neg he] at ht
        rcases List.mem_cons.mp ht with ht' | ht'
        · subst ht'
          refine ⟨?_, ?_⟩
          · show acc.reverse ≠ []
            simpa [List.isEmpty_iff] using he
          · intro x hx
            exact hacc x (List.mem_reverse.mp hx)
        · exact ih hcs' [] (by intro x hx; exact absurd hx (List.not_mem_nil x)) t ht'
    · have hw' : isPyWs c = false := by
        cases h : isPyWs c
        · rfl
        · rcases isTokenChar_not_ws c htk with h2
          rw [h] at h2
          exact absurd h2 (by decide)
      rw [splitWsAux, hw'] at ht
      exact ih hcs' (c :: acc)
        (by
          intro x hx
          rcases List.mem_cons.mp hx with h | h
          · subst h
            exact htk
          · exact hacc x h) t ht

theorem mem_tokenize_canonical (s t : String) (h : t ∈ tokenize s) :
    t ≠ "" ∧ t ∉ STOPWORDS ∧ ∀ c ∈ t.data, isTokenChar c = true := by
  unfold tokenize at h
  obtain ⟨hmem, hp⟩ := List.mem_filter.mp h
  have hne : t ≠ "" := by
    intro h0
    subst h0
    simp at hp
  have hns : t ∉ STOPWORDS := by
    intro h0
    have : STOPWORDS.contains t = true := List.elem_eq_true_of_mem h0
    rw [this] at hp
    simp at hp
  have hchars : ∀ c ∈ (s.data.map pyLower).map scrubChar,
      isPyWs c = true ∨ isTokenChar c = true := by
    intro c hcm
    rcases List.mem_map.mp hcm with ⟨d, _, hd⟩
    subst hd
    exact scrubChar_ws_or_token d
  have := splitWsAux_chars _ hchars []
    (by intro x hx; exact absurd hx (List.not_mem_nil x)) t hmem
  exact ⟨hne, hns, this.2⟩

theorem empty_not_mem_tokenize (s : String) : "" ∉ tokenize s :=
  fun h => (mem_tokenize_canonical s "" h).1 rfl

theorem indexTokensFrom_get (u : Val) (ts : List String) (hts : "" ∉ ts) :
    ∀ (p : Nat) (idx : PosIndex) (t : String),
      indexTokensFrom u ts p idx t u = idx t u ++ occFrom t ts p := by
  induction ts with
  | nil =>
    intro p idx t
    rw [indexTokensFrom, occFrom, List.append_nil]
  | cons x xs ih =>
    intro p idx t
    have hx : x ≠ "" := fun h0 => hts (h0 ▸ List.mem_cons_self x xs)
    have hxs : "" ∉ xs := fun h0 => hts (List.mem_cons_of_mem x h0)
    rw [indexTokensFrom, if_pos hx, ih hxs]
    rw [occFrom]
    by_cases hteq : t = x
    · subst hteq
      rw [updatePos, if_pos ⟨rfl, rfl⟩, if_pos rfl]
      rw [List.append_assoc]
    · rw [updatePos, if_neg (fun hc => hteq hc.1), if_neg (fun hc => hteq hc.symm)]
      rw [List.nil_append]

theorem indexTokensFrom_other (u : Val) (ts : List String) :
    ∀ (p : Nat) (idx : PosIndex) (t : String) (u' : Val), u' ≠ u →
      indexTokensFrom u ts p idx t u' = idx t u' := by
  induction ts with
  | nil =>
    intro p idx t u' _
    rw [indexTokensFrom]
  | cons x xs ih =>
    intro p idx t u' hu
    rw [indexTokensFrom]
    rw [ih (p + 1) _ t u' hu]
    by_cases hx : x ≠ ""
    · rw [if_pos hx, updatePos, if_neg (fun hc => hu hc.2)]
    · rw [if_neg hx]

theorem indexTokensFrom_not_mem (u : Val) (ts : List String) :
    ∀ (p : Nat) (idx : PosIndex) (t : String) (u' : Val), t ∉ ts →
      indexTokensFrom u ts p idx t u' = idx t u' := by
  induction ts with
  | nil =>
    intro p idx t u' _
    rw [indexTokensFrom]
  | cons x xs ih =>
    intro p idx t u' ht
    have htx : t ≠ x := fun h0 => ht (h0 ▸ List.mem_cons_self x xs)
    have htxs : t ∉ xs := fun h0 => ht (List.mem_cons_of_mem x h0)
    rw [indexTokensFrom, ih (p + 1) _ t u' htxs]
    by_cases hx : x ≠ ""
    · rw [if_pos hx, updatePos, if_neg (fun hc => htx hc.1)]
    · rw [if_neg hx]

theorem indexText_get (text : String) (u : Val) (idx : PosIndex) (t : String) :
    _index_text text u idx t u = idx t u ++ occPositions t (tokenize text) := by
  unfold _index_text occPositions
  exact indexTokensFrom_get u (tokenize text) (empty_not_mem_tokenize text) 0 idx t

theorem addDoc_mem (l : List Val) (u : Val) : u ∈ addDoc l u := by
  unfold addDoc
  by_cases h : u ∈ l
  · rw [if_pos h]
    exact h
  · rw [if_neg h]
    exact List.mem_append_right l (List.mem_singleton.mpr rfl)

theorem addDoc_of_mem (l : List Val) (u : Val) (h : u ∈ l) : addDoc l u = l := by
  unfold addDoc
  rw [if_pos h]

theorem addDoc_nodup (l : List Val) (u : Val) (h : l.Nodup) : (addDoc l u).Nodup := by
  unfold addDoc
  by_cases hm : u ∈ l
  · rw [if_pos hm]
    exact h
  · rw [if_neg hm]
    simp [List.nodup_append, h, hm]

theorem addCat_idem (idx : CatIndex) (t : String) (u : Val) :
    addCat (addCat idx t u) t u = addCat idx t u := by
  funext t'
  unfold addCat
  by_cases h : t' = t
  · simp only [if_pos h]
    exact addDoc_of_mem _ u (addDoc_mem _ u)
  · simp only [if_neg h]

theorem addCat_nodup (idx : CatIndex) (t : String) (u : Val)
    (h : ∀ t', (idx t').Nodup) : ∀ t', ((addCat idx t u) t').Nodup := by
  intro t'
  unfold addCat
  by_cases he : t' = t
  · rw [if_pos he]
    exact addDoc_nodup _ u (h t')
  · rw [if_neg he]
    exact h t'

theorem addCatTokens_nodup (ts : List String) :
    ∀ (idx : CatIndex) (u : Val), (∀ t', (idx t').Nodup) →
      ∀ t', ((addCatTokens idx ts u) t').Nodup := by
  induction ts with
  | nil =>
    intro idx u h t'
    exact h t'
  | cons x xs ih =>
    intro idx u h t'
    rw [addCatTokens, List.foldl_cons]
    exact ih (addCat idx x u) u (addCat_nodup idx x u h) t'

theorem addCatTokens_not_mem (ts : List String) :
    ∀ (idx : CatIndex) (u : Val) (t' : String), t' ∉ ts →
      (addCatTokens idx ts u) t' = idx t' := by
  induction ts with
  | nil =>
    intro idx u t' _
    rfl
  | cons x xs ih =>
    intro idx u t' ht
    have htx : t' ≠ x := fun h0 => ht (h0 ▸ List.mem_cons_self x xs)
    have htxs : t' ∉ xs := fun h0 => ht (List.mem_cons_of_mem x h0)
    rw [addCatTokens, List.foldl_cons]
    have := ih (addCat idx x u) u t' htxs
    rw [addCatTokens] at this
    rw [this, addCat, if_neg htx]

theorem searchLoop_some_mem (d : String → Option (List Val)) (ts : List String) :
    ∀ (r : Finset Val) (u : Val),
      u ∈ searchLoop d ts (some r) ↔
        u ∈ r ∧ ∀ t ∈ ts, ∃ ps, d t = some ps ∧ u ∈ ps := by
  induction ts with
  | nil =>
    intro r u
    rw [searchLoop]
    simp
  | cons t ts ih =>
    intro r u
    rw [searchLoop]
    cases hd : d t with
    | none =>
      simp only [Finset.not_mem_empty, false_iff]
      intro hc
      obtain ⟨ps, hps, _⟩ := hc.2 t (List.mem_cons_self t ts)
      rw [hd] at hps
      exact Option.noConfusion hps
    | some ps =>
      rw [ih]
      constructor
      · rintro ⟨hr, hrest⟩
        have hmem := Finset.mem_inter.mp hr
        refine ⟨hmem.1, ?_⟩
        intro x hx
        rcases List.mem_cons.mp hx with hx' | hx'
        · subst hx'
          exact ⟨ps, hd, List.mem_toFinset.mp hmem.2⟩
        · exact hrest x hx'
      · rintro ⟨hr, hall⟩
        obtain ⟨ps', hps', hups'⟩ := hall t (List.mem_cons_self t ts)
        rw [hd] at hps'
        have hpe : ps' = ps := by
          injection hps' with h
          exact h.symm
        subst hpe
        refine ⟨Finset.mem_inter.mpr ⟨hr, List.mem_toFinset.mpr hups'⟩, ?_⟩
        intro x hx
        exact hall x (List.mem_cons_of_mem t hx)

theorem searchLoop_none_mem (d : String → Option (List Val)) (ts : List String)
    (hne : ts ≠ []) :
    ∀ u : Val, u ∈ searchLoop d ts none ↔
      ∀ t ∈ ts, ∃ ps, d t = some ps ∧ u ∈ ps := by
  cases ts with
  | nil => exact absurd rfl hne
  | cons t ts =>
    intro u
    rw [searchLoop]
    cases hd : d t with
    | none =>
      simp only [Finset.not_mem_empty, false_iff]
      intro hc
      obtain ⟨ps, hps, _⟩ := hc t (List.mem_cons_self t ts)
      rw [hd] at hps
      exact Option.noConfusion hps
    | some ps =>
      rw [searchLoop_some_mem]
      constructor
      · rintro ⟨hr, hrest⟩
        intro x hx
        rcases List.mem_cons.mp hx with hx' | hx'
        · subst hx'
          exact ⟨ps, hd, List.mem_toFinset.mp hr⟩
        · exact hrest x hx'
      · intro hall
        obtain ⟨ps', hps', hups'⟩ := hall t (List.mem_cons_self t ts)
        rw [hd] at hps'
        have hpe : ps' = ps := by
          injection hps' with h
          exact h.symm
        subst hpe
        refine ⟨List.mem_toFinset.mpr hups', ?_⟩
        intro x hx
        exact hall x (List.mem_cons_of_mem t hx)

/-- C1. `search_title` tokenizes the query with the indexing tokenizer and
returns the empty set when the query has no tokens or when any query token
is absent from the index; otherwise it returns the intersection over all
query tokens of the sets of document identifiers in that token's postings
entry. Stated as: a document is returned iff the query has at least one
token and every query token has a postings entry containing that document. -/
theorem search_title_and_semantics (q : String) (d : String → Option (List Val))
    (u : Val) :
    u ∈ search_title q d ↔
      (tokenize q ≠ [] ∧ ∀ t ∈ tokenize q, ∃ ps, d t = some ps ∧ u ∈ ps) := by
  unfold search_title
  by_cases he : (tokenize q).isEmpty
  · rw [if_pos he]
    have : tokenize q = [] := List.isEmpty_iff.mp he
    simp [this]
  · rw [if_neg he]
    have hne : tokenize q ≠ [] := by
      intro h0
      exact he (by rw [h0]; rfl)
    rw [searchLoop_none_mem d (tokenize q) hne u]
    simp [hne]

theorem procText_none_iff (v u : Val) (idx : PosIndex) :
    procText v u idx = none ↔ textOk v = false := by
  unfold procText textOk
  cases ht : v.truthy with
  | false =>
    simp
  | true =>
    cases v with
    | vnone => simp
    | vnum q => simp
    | vstr s => simp
    | vlist xs => simp
    | vdict fs => simp

theorem procCat_none_iff (f : Val) (k : String) (u : Val) (idx : CatIndex) :
    procCat f k u idx = none ↔ catOk f k = false := by
  unfold procCat catOk
  cases hk : hasKey f k with
  | none => simp
  | some b =>
    cases b with
    | false => simp
    | true =>
      cases hi : getItem f k with
      | none => simp
      | some v =>
        cases v with
        | vnone => simp
        | vnum q => simp
        | vstr s =>
          by_cases hs : s = ""
          · subst hs
            simp
          · simp [hs]
        | vlist xs => simp
        | vdict fs => simp

theorem procReviews_none_iff (fs : List (String × Val)) (u : Val) (st : IndexState) :
    procReviews fs u st = none ↔
      revOk (dictGet fs "product_reviews" (.vlist [])) = false := by
  unfold procReviews revOk
  cases hv : dictGet fs "product_reviews" (.vlist []) with
  | vnone => simp [Val.truthy]
  | vnum q => cases ht : (Val.vnum q).truthy <;> simp [ht]
  | vstr s => cases ht : (Val.vstr s).truthy <;> simp [ht]
  | vlist rs =>
    cases ht : (Val.vlist rs).truthy with
    | false => simp [ht]
    | true =>
      cases hr : reviewStatsOf rs with
      | none => simp [ht, hr]
      | some s => simp [ht, hr]
  | vdict gs => cases ht : (Val.vdict gs).truthy <;> simp [ht]

theorem procText_some (v u : Val) (idx idx' : PosIndex)
    (h : procText v u idx = some idx') :
    idx' = idx ∨ ∃ s, v = .vstr s ∧ idx' = _index_text s u idx := by
  unfold procText at h
  cases ht : v.truthy with
  | false =>
    rw [ht] at h
    simp at h
    exact Or.inl h.symm
  | true =>
    rw [ht] at h
    cases v with
    | vnone => simp at h
    | vnum q => simp at h
    | vstr s =>
      simp at h
      exact Or.inr ⟨s, rfl, h.symm⟩
    | vlist xs => simp at h
    | vdict gs => simp at h

theorem procCat_some (f : Val) (k : String) (u : Val) (idx idx' : CatIndex)
    (h : procCat f k u idx = some idx') :
    idx' = idx ∨ ∃ s, idx' = addCatTokens idx (tokenize s) u := by
  unfold procCat at h
  cases hk : hasKey f k with
  | none =>
    rw [hk] at h
    simp at h
  | some b =>
    rw [hk] at h
    cases b with
    | false =>
      simp at h
      exact Or.inl h.symm
    | true =>
      cases hi : getItem f k with
      | none =>
        rw [hi] at h
        simp at h
      | some v =>
        rw [hi] at h
        cases v with
        | vnone =>
          simp at h
          exact Or.inl h.symm
        | vnum q =>
          simp at h
          exact Or.inl h.symm
        | vstr s =>
          by_cases hs : s = ""
          · subst hs
            simp at h
            exact Or.inl h.symm
          · simp [hs] at h
            exact Or.inr ⟨s, h.symm⟩
        | vlist xs =>
          simp at h
          exact Or.inl h.symm
        | vdict gs =>
          simp at h
          exact Or.inl h.symm

theorem procReviews_some (fs : List (String × Val)) (u : Val) (st st' : IndexState)
    (h : procReviews fs u st = some st') :
    st'.title_index = st.title_index ∧ st'.description_index = st.description_index ∧
      st'.brand_index = st.brand_index ∧ st'.origin_index = st.origin_index ∧
      ∃ sv, st'.reviews_index = fun u' => if u' = u then some sv else st.reviews_index u' := by
  simp only [procReviews] at h
  cases ht : (dictGet fs "product_reviews" (.vlist [])).truthy with
  | false =>
    rw [ht] at h
    simp at h
    subst h
    exact ⟨rfl, rfl, rfl, rfl, ⟨0, 0, 0⟩, rfl⟩
  | true =>
    rw [ht] at h
    cases hv : dictGet fs "product_reviews" (.vlist []) with
    | vnone => rw [hv] at h; simp at h
    | vnum q => rw [hv] at h; simp at h
    | vstr s => rw [hv] at h; simp at h
    | vlist rs =>
      rw [hv] at h
      dsimp only at h
      cases hr : reviewStatsOf rs with
      | none => rw [hr] at h; simp at h
      | some sv =>
        rw [hr] at h
        simp at h
        subst h
        exact ⟨rfl, rfl, rfl, rfl, sv, rfl⟩
    | vdict gs => rw [hv] at h; simp at h

theorem textOk_of_some (v u : Val) (idx idx' : PosIndex)
    (h : procText v u idx = some idx') : textOk v = true := by
  cases ht : textOk v with
  | false =>
    rw [(procText_none_iff v u idx).mpr ht] at h
    exact Option.noConfusion h
  | true => rfl

theorem catOk_of_some (f : Val) (k : String) (u : Val) (idx idx' : CatIndex)
    (h : procCat f k u idx = some idx') : catOk f k = true := by
  cases ht : catOk f k with
  | false =>
    rw [(procCat_none_iff f k u idx).mpr ht] at h
    exact Option.noConfusion h
  | true => rfl

theorem revOk_of_some (fs : List (String × Val)) (u : Val) (st st' : IndexState)
    (h : procReviews fs u st = some st') :
    revOk (dictGet fs "product_reviews" (.vlist [])) = true := by
  cases ht : revOk (dictGet fs "product_reviews" (.vlist [])) with
  | false =>
    rw [(procReviews_none_iff fs u st).mpr ht] at h
    exact Option.noConfusion h
  | true => rfl

theorem processProduct_anatomy (r : Val) (st : IndexState) :
    ((_process_product r st).2 = recOk r) ∧
    ((_process_product r st).1.title_index = st.title_index ∨
      ∃ s u, (_process_product r st).1.title_index = _index_text s u st.title_index) ∧
    ((_process_product r st).1.description_index = st.description_index ∨
      ∃ s u, (_process_product r st).1.description_index = _index_text s u st.description_index) ∧
    ((_process_product r st).1.brand_index = st.brand_index ∨
      ∃ s u, (_process_product r st).1.brand_index = addCatTokens st.brand_index (tokenize s) u) ∧
    ((_process_product r st).1.origin_index = st.origin_index ∨
      ∃ s u, (_process_product r st).1.origin_index = addCatTokens st.origin_index (tokenize s) u) ∧
    (recOk r = true → (urlOf r).truthy = true →
      ∃ sv, (_process_product r st).1.reviews_index =
        fun u' => if u' = urlOf r then some sv else st.reviews_index u') ∧
    (¬(recOk r = true ∧ (urlOf r).truthy = true) →
      (_process_product r st).1.reviews_index = st.reviews_index) := by
  cases r with
  | vnone =>
    refine ⟨rfl, Or.inl rfl, Or.inl rfl, Or.inl rfl, Or.inl rfl, ?_, fun _ => rfl⟩
    intro h _
    exact Bool.noConfusion h
  | vnum q =>
    refine ⟨rfl, Or.inl rfl, Or.inl rfl, Or.inl rfl, Or.inl rfl, ?_, fun _ => rfl⟩
    intro h _
    exact Bool.noConfusion h
  | vstr s =>
    refine ⟨rfl, Or.inl rfl, Or.inl rfl, Or.inl rfl, Or.inl rfl, ?_, fun _ => rfl⟩
    intro h _
    exact Bool.noConfusion h
  | vlist xs =>
    refine ⟨rfl, Or.inl rfl, Or.inl rfl, Or.inl rfl, Or.inl rfl, ?_, fun _ => rfl⟩
    intro h _
    exact Bool.noConfusion h
  | vdict fs =>
    simp only [urlOf]
    cases hu : (dictGet fs "url" (Val.vstr "")).truthy with
    | false =>
      have hres : _process_product (Val.vdict fs) st = (st, true) := by
        simp [_process_product, hu]
      have hok : recOk (Val.vdict fs) = true := by
        simp [recOk, hu]
      rw [hres, hok]
      refine ⟨rfl, Or.inl rfl, Or.inl rfl, Or.inl rfl, Or.inl rfl, ?_, fun _ => rfl⟩
      intro _ hurl
      exact Bool.noConfusion hurl
    | true =>
      cases h1 : procText (dictGet fs "title" (Val.vstr ""))
          (dictGet fs "url" (Val.vstr "")) st.title_index with
      | none =>
        have h1ok : textOk (dictGet fs "title" (Val.vstr "")) = false :=
          (procText_none_iff _ _ _).mp h1
        have hres : _process_product (Val.vdict fs) st = (st, false) := by
          simp [_process_product, hu, h1]
        have hok : recOk (Val.vdict fs) = false := by
          simp [recOk, hu, h1ok]
        rw [hres, hok]
        refine ⟨rfl, Or.inl rfl, Or.inl rfl, Or.inl rfl, Or.inl rfl, ?_, fun _ => rfl⟩
        intro h _
        exact Bool.noConfusion h
      | some ti =>
        have h1ok : textOk (dictGet fs "title" (Val.vstr "")) = true :=
          textOk_of_some _ _ _ _ h1
        cases h2 : procText (dictGet fs "description" (Val.vstr ""))
            (dictGet fs "url" (Val.vstr "")) st.description_index with
        | none =>
          have h2ok : textOk (dictGet fs "description" (Val.vstr "")) = false :=
            (procText_none_iff _ _ _).mp h2
          have hres : _process_product (Val.vdict fs) st =
              (⟨ti, st.description_index, st.brand_index, st.origin_index,
                st.reviews_index⟩, false) := by
            simp [_process_product, hu, h1, h2]
          have hok : recOk (Val.vdict fs) = false := by
            simp [recOk, hu, h1ok, h2ok]
          rw [hres, hok]
          refine ⟨rfl, ?_, Or.inl rfl, Or.inl rfl, Or.inl rfl, ?_, fun _ => rfl⟩
          · rcases procText_some _ _ _ _ h1 with h | ⟨s, _, h⟩
            · exact Or.inl h
            · exact Or.inr ⟨s, dictGet fs "url" (Val.vstr ""), h⟩
          · intro h _
            exact Bool.noConfusion h
        | some di =>
          have h2ok : textOk (dictGet fs "description" (Val.vstr "")) = true :=
            textOk_of_some _ _ _ _ h2
          cases h3 : procCat (dictGet fs "product_features" (Val.vdict [])) "brand"
              (dictGet fs "url" (Val.vstr "")) st.brand_index with
          | none =>
            have h3ok : catOk (dictGet fs "product_features" (Val.vdict [])) "brand" = false :=
              (procCat_none_iff _ _ _ _).mp h3
            have hres : _process_product (Val.vdict fs) st =
                (⟨ti, di, st.brand_index, st.origin_index, st.reviews_index⟩, false) := by
              simp [_process_product, hu, h1, h2, h3]
            have hok : recOk (Val.vdict fs) = false := by
              simp [recOk, hu, h1ok, h2ok, h3ok]
            rw [hres, hok]
            refine ⟨rfl, ?_, ?_, Or.inl rfl, Or.inl rfl, ?_, fun _ => rfl⟩
            · rcases procText_some _ _ _ _ h1 with h | ⟨s, _, h⟩
              · exact Or.inl h
              · exact Or.inr ⟨s, dictGet fs "url" (Val.vstr ""), h⟩
            · rcases procText_some _ _ _ _ h2 with h | ⟨s, _, h⟩
              · exact Or.inl h
              · exact Or.inr ⟨s, dictGet fs "url" (Val.vstr ""), h⟩
            · intro h _
              exact Bool.noConfusion h
          | some bi =>
            have h3ok : catOk (dictGet fs "product_features" (Val.vdict [])) "brand" = true :=
              catOk_of_some _ _ _ _ _ h3
            cases h4 : procCat (dictGet fs "product_features" (Val.vdict [])) "made in"
                (dictGet fs "url" (Val.vstr "")) st.origin_index with
            | none =>
              have h4ok : catOk (dictGet fs "product_features" (Val.vdict [])) "made in"
                  = false := (procCat_none_iff _ _ _ _).mp h4
              have hres : _process_product (Val.vdict fs) st =
                  (⟨ti, di, bi, st.origin_index, st.reviews_index⟩, false) := by
                simp [_process_product, hu, h1, h2, h3, h4]
              have hok : recOk (Val.vdict fs) = false := by
                simp [recOk, hu, h1ok, h2ok, h3ok, h4ok]
              rw [hres, hok]
              refine ⟨rfl, ?_, ?_, ?_, Or.inl rfl, ?_, fun _ => rfl⟩
              · rcases procText_some _ _ _ _ h1 with h | ⟨s, _, h⟩
                · exact Or.inl h
                · exact Or.inr ⟨s, dictGet fs "url" (Val.vstr ""), h⟩
              · rcases procText_some _ _ _ _ h2 with h | ⟨s, _, h⟩
                · exact Or.inl h
                · exact Or.inr ⟨s, dictGet fs "url" (Val.vstr ""), h⟩
              · rcases procCat_some _ _ _ _ _ h3 with h | ⟨s, h⟩
                · exact Or.inl h
                · exact Or.inr ⟨s, dictGet fs "url" (Val.vstr ""), h⟩
              · intro h _
                exact Bool.noConfusion h
            | some oi =>
              have h4ok : catOk (dictGet fs "product_features" (Val.vdict [])) "made in"
                  = true := catOk_of_some _ _ _ _ _ h4
              cases h5 : procReviews fs (dictGet fs "url" (Val.vstr ""))
                  ⟨ti, di, bi, oi, st.reviews_index⟩ with
              | none =>
                have h5ok : revOk (dictGet fs "product_reviews" (Val.vlist [])) = false :=
                  (procReviews_none_iff _ _ _).mp h5
                have hres : _process_product (Val.vdict fs) st =
                    (⟨ti, di, bi, oi, st.reviews_index⟩, false) := by
                  simp [_process_product, hu, h1, h2, h3, h4, h5]
                have hok : recOk (Val.vdict fs) = false := by
                  simp [recOk, hu, h1ok, h2ok, h3ok, h4ok, h5ok]
                rw [hres, hok]
                refine ⟨rfl, ?_, ?_, ?_, ?_, ?_, fun _ => rfl⟩
                · rcases procText_some _ _ _ _ h1 with h | ⟨s, _, h⟩
                  · exact Or.inl h
                  · exact Or.inr ⟨s, dictGet fs "url" (Val.vstr ""), h⟩
                · rcases procText_some _ _ _ _ h2 with h | ⟨s, _, h⟩
                  · exact Or.inl h
                  · exact Or.inr ⟨s, dictGet fs "url" (Val.vstr ""), h⟩
                · rcases procCat_some _ _ _ _ _ h3 with h | ⟨s, h⟩
                  · exact Or.inl h
                  · exact Or.inr ⟨s, dictGet fs "url" (Val.vstr ""), h⟩
                · rcases procCat_some _ _ _ _ _ h4 with h | ⟨s, h⟩
                  · exact Or.inl h
                  · exact Or.inr ⟨s, dictGet fs "url" (Val.vstr ""), h⟩
                · intro h _
                  exact Bool.noConfusion h
              | some st5 =>
                have h5ok : revOk (dictGet fs "product_reviews" (Val.vlist [])) = true :=
                  revOk_of_some _ _ _ _ h5
                obtain ⟨hti5, hdi5, hbi5, hoi5, sv, hrv5⟩ := procReviews_some _ _ _ _ h5
                have hres : _process_product (Val.vdict fs) st = (st5, true) := by
                  simp [_process_product, hu, h1, h2, h3, h4, h5]
                have hok : recOk (Val.vdict fs) = true := by
                  simp [recOk, hu, h1ok, h2ok, h3ok, h4ok, h5ok]
                rw [hres, hok]
                refine ⟨rfl, ?_, ?_, ?_, ?_, ?_, ?_⟩
                · rw [show st5.title_index = ti from hti5]
                  rcases procText_some _ _ _ _ h1 with h | ⟨s, _, h⟩
                  · exact Or.inl h
                  · exact Or.inr ⟨s, dictGet fs "url" (Val.vstr ""), h⟩
                · rw [show st5.description_index = di from hdi5]
                  rcases procText_some _ _ _ _ h2 with h | ⟨s, _, h⟩
                  · exact Or.inl h
                  · exact Or.inr ⟨s, dictGet fs "url" (Val.vstr ""), h⟩
                · rw [show st5.brand_index = bi from hbi5]
                  rcases procCat_some _ _ _ _ _ h3 with h | ⟨s, h⟩
                  · exact Or.inl h
                  · exact Or.inr ⟨s, dictGet fs "url" (Val.vstr ""), h⟩
                · rw [show st5.origin_index = oi from hoi5]
                  rcases procCat_some _ _ _ _ _ h4 with h | ⟨s, h⟩
                  · exact Or.inl h
                  · exact Or.inr ⟨s, dictGet fs "url" (Val.vstr ""), h⟩
                · intro _ _
                  exact ⟨sv, hrv5⟩
                · intro h
                  exact absurd ⟨rfl, rfl⟩ h

theorem processRecord_reviews (r : Val) (st : IndexState) (u : Val) :
    (processRecord st r).reviews_index u ≠ none ↔
      (st.reviews_index u ≠ none ∨
        (recOk r = true ∧ urlOf r = u ∧ (urlOf r).truthy = true)) := by
  obtain ⟨-, -, -, -, -, hw, hun⟩ := processProduct_anatomy r st
  by_cases hc : recOk r = true ∧ (urlOf r).truthy = true
  · obtain ⟨sv, hrv⟩ := hw hc.1 hc.2
    unfold processRecord
    rw [hrv]
    by_cases hu : u = urlOf r
    · simp [hu, hc.1, hc.2]
    · have hu' : ¬(urlOf r = u) := fun h0 => hu h0.symm
      simp [hu, hu']
  · unfold processRecord
    rw [hun hc]
    constructor
    · exact Or.inl
    · rintro (h | h)
      · exact h
      · exact absurd ⟨h.1, h.2.2⟩ hc

theorem reviews_index_fold (recs : List Val) : ∀ (st : IndexState) (u : Val),
    (process_jsonl recs st).reviews_index u ≠ none ↔
      (st.reviews_index u ≠ none ∨
        ∃ r ∈ recs, recOk r = true ∧ urlOf r = u ∧ (urlOf r).truthy = true) := by
  induction recs with
  | nil =>
    intro st u
    simp [process_jsonl]
  | cons r rs ih =>
    intro st u
    have hstep : process_jsonl (r :: rs) st = process_jsonl rs (processRecord st r) := rfl
    rw [hstep, ih, processRecord_reviews]
    constructor
    · rintro ((h | h) | ⟨x, hx, hp⟩)
      · exact Or.inl h
      · exact Or.inr ⟨r, List.mem_cons_self r rs, h⟩
      · exact Or.inr ⟨x, List.mem_cons_of_mem r hx, hp⟩
    · rintro (h | ⟨x, hx, hp⟩)
      · exact Or.inl (Or.inl h)
      · rcases List.mem_cons.mp hx with hx' | hx'
        · subst hx'
          exact Or.inl (Or.inr hp)
        · exact Or.inr ⟨x, hx', hp⟩

theorem processProduct_brand_nodup (r : Val) (st : IndexState)
    (h : ∀ t, (st.brand_index t).Nodup) :
    ∀ t, (((_process_product r st).1).brand_index t).Nodup := by
  obtain ⟨-, -, -, hb, -, -, -⟩ := processProduct_anatomy r st
  rcases hb with hb | ⟨s, u, hb⟩
  · rw [hb]
    exact h
  · rw [hb]
    exact addCatTokens_nodup (tokenize s) st.brand_index u h

theorem processProduct_origin_nodup (r : Val) (st : IndexState)
    (h : ∀ t, (st.origin_index t).Nodup) :
    ∀ t, (((_process_product r st).1).origin_index t).Nodup := by
  obtain ⟨-, -, -, -, ho, -, -⟩ := processProduct_anatomy r st
  rcases ho with ho | ⟨s, u, ho⟩
  · rw [ho]
    exact h
  · rw [ho]
    exact addCatTokens_nodup (tokenize s) st.origin_index u h

theorem processJsonl_cat_nodup (recs : List Val) : ∀ st : IndexState,
    (∀ t, (st.brand_index t).Nodup) → (∀ t, (st.origin_index t).Nodup) →
      ∀ t, (((process_jsonl recs st).brand_index t).Nodup ∧
        ((process_jsonl recs st).origin_index t).Nodup) := by
  induction recs with
  | nil =>
    intro st hb ho t
    exact ⟨hb t, ho t⟩
  | cons r rs ih =>
    intro st hb ho t
    have hstep : process_jsonl (r :: rs) st = process_jsonl rs (processRecord st r) := rfl
    rw [hstep]
    exact ih (processRecord st r) (processProduct_brand_nodup r st hb)
      (processProduct_origin_nodup r st ho) t

theorem processProduct_keys (r : Val) (st : IndexState) (t : String)
    (h : keyUsed ((_process_product r st).1) t) : keyUsed st t ∨ canonicalTok t := by
  obtain ⟨-, hti, hdi, hbi, hoi, -, -⟩ := processProduct_anatomy r st
  rcases h with ⟨u', hk⟩ | ⟨u', hk⟩ | hk | hk
  · rcases hti with he | ⟨s, u, he⟩
    · rw [he] at hk
      exact Or.inl (Or.inl ⟨u', hk⟩)
    · rw [he] at hk
      by_cases hm : t ∈ tokenize s
      · exact Or.inr (mem_tokenize_canonical s t hm)
      · rw [_index_text, indexTokensFrom_not_mem u (tokenize s) 0 st.title_index t u' hm] at hk
        exact Or.inl (Or.inl ⟨u', hk⟩)
  · rcases hdi with he | ⟨s, u, he⟩
    · rw [he] at hk
      exact Or.inl (Or.inr (Or.inl ⟨u', hk⟩))
    · rw [he] at hk
      by_cases hm : t ∈ tokenize s
      · exact Or.inr (mem_tokenize_canonical s t hm)
      · rw [_index_text,
          indexTokensFrom_not_mem u (tokenize s) 0 st.description_index t u' hm] at hk
        exact Or.inl (Or.inr (Or.inl ⟨u', hk⟩))
  · rcases hbi with he | ⟨s, u, he⟩
    · rw [he] at hk
      exact Or.inl (Or.inr (Or.inr (Or.inl hk)))
    · rw [he] at hk
      by_cases hm : t ∈ tokenize s
      · exact Or.inr (mem_tokenize_canonical s t hm)
      · rw [addCatTokens_not_mem (tokenize s) st.brand_index u t hm] at hk
        exact Or.inl (Or.inr (Or.inr (Or.inl hk)))
  · rcases hoi with he | ⟨s, u, he⟩
    · rw [he] at hk
      exact Or.inl (Or.inr (Or.inr (Or.inr hk)))
    · rw [he] at hk
      by_cases hm : t ∈ tokenize s
      · exact Or.inr (mem_tokenize_canonical s t hm)
      · rw [addCatTokens_not_mem (tokenize s) st.origin_index u t hm] at hk
        exact Or.inl (Or.inr (Or.inr (Or.inr hk)))

theorem processJsonl_keys (recs : List Val) : ∀ (st : IndexState) (t : String),
    keyUsed (process_jsonl recs st) t → keyUsed st t ∨ canonicalTok t := by
  induction recs with
  | nil =>
    intro st t h
    exact Or.inl h
  | cons r rs ih =>
    intro st t h
    have hstep : process_jsonl (r :: rs) st = process_jsonl rs (processRecord st r) := rfl
    rw [hstep] at h
    rcases ih (processRecord st r) t h with hk | hc
    · exact processProduct_keys r st t hk
    · exact Or.inr hc

/-- C6. After a full ingestion pass from the empty state, the review stats
table has an entry exactly at the url of every record that was processed to
completion with a truthy (non-empty) url — including records with zero
reviews — and at no other key. -/
theorem reviews_index_exactly_processed (recs : List Val) (u : Val) :
    (process_jsonl recs emptyState).reviews_index u ≠ none ↔
      ∃ r ∈ recs, recOk r = true ∧ urlOf r = u ∧ (urlOf r).truthy = true := by
  rw [reviews_index_fold]
  simp [emptyState]

/-- C8. Tokenization is idempotent on canonical tokens: a non-empty,
lowercase-alphanumeric-only string retokenizes to itself (or to nothing if
it is a stopword); consequently every token key used in any index built
from the empty state is non-empty and retokenizes to exactly itself. -/
theorem tokenize_idempotent_keys :
    (∀ t : String, t ≠ "" → (∀ c ∈ t.data, isTokenChar c = true) →
      tokenize t = if t ∈ STOPWORDS then [] else [t]) ∧
    (∀ (recs : List Val) (t : String), keyUsed (process_jsonl recs emptyState) t →
      t ≠ "" ∧ tokenize t = [t]) := by
  constructor
  · exact tokenize_canonical
  · intro recs t h
    rcases processJsonl_keys recs emptyState t h with hk | ⟨h1, h2, h3⟩
    · exfalso
      rcases hk with ⟨u, hk⟩ | ⟨u, hk⟩ | hk | hk <;> exact hk rfl
    · refine ⟨h1, ?_⟩
      rw [tokenize_canonical t h1 h3, if_neg h2]

/-- Witness for C8 at concrete inputs: "shoe" retokenizes to itself, and the
key "red" of a concretely built title index is non-empty and retokenizes to
itself. -/
theorem tokenize_idempotent_keys_witness :
    tokenize "shoe" = (if "shoe" ∈ STOPWORDS then [] else ["shoe"]) ∧
    ("red" ≠ "" ∧ tokenize "red" = ["red"]) := by
  refine ⟨tokenize_idempotent_keys.1 "shoe" (by decide) (by decide),
    tokenize_idempotent_keys.2
      [Val.vdict [("url", Val.vstr "u1"), ("title", Val.vstr "red shoe red hat")]]
      "red" ?_⟩
  exact Or.inl ⟨Val.vstr "u1", by decide⟩

/-- C9. Categorical insertion is idempotent: after the first `add` of a
(token, url) pair, any number of further identical `add`s leaves the index
unchanged; and in any state built from the empty state the brand and origin
postings never contain a duplicate document identifier. -/
theorem categorical_add_idempotent :
    (∀ (idx : CatIndex) (t : String) (u : Val) (n : Nat),
      (fun i => addCat i t u)^[n] (addCat idx t u) = addCat idx t u) ∧
    (∀ (recs : List Val) (t : String),
      ((process_jsonl recs emptyState).brand_index t).Nodup ∧
      ((process_jsonl recs emptyState).origin_index t).Nodup) := by
  constructor
  · intro idx t u n
    induction n with
    | zero => rfl
    | succ n ihn =>
      rw [Function.iterate_succ_apply]
      rw [show addCat (addCat idx t u) t u = addCat idx t u from addCat_idem idx t u, ihn]
  · intro recs t
    exact processJsonl_cat_nodup recs emptyState
      (fun _ => List.nodup_nil) (fun _ => List.nodup_nil) t

/-- C7. A record whose `url` field is absent or the empty string is skipped
whole: the state is returned exactly unchanged and no error is raised. -/
theorem missing_url_skips_document (fs : List (String × Val)) (st : IndexState)
    (h : dictGet fs "url" (Val.vstr "") = Val.vstr "") :
    _process_product (Val.vdict fs) st = (st, true) := by
  simp [_process_product, h, Val.truthy]

/-- Witness for C7: the empty record (no `url` key) leaves the empty state
unchanged and raises no error. -/
theorem missing_url_skips_document_witness :
    _process_product (Val.vdict []) emptyState = (emptyState, true) :=
  missing_url_skips_document [] emptyState rfl

/-- C2 counterexample: the stopword set of the source has 32 distinct
entries, not 31. -/
theorem stopwords_are_thirty_two :
    STOPWORDS.length = 32 ∧ STOPWORDS.Nodup ∧ ¬(STOPWORDS.length = 31) := by
  refine ⟨by decide, by decide, by decide⟩

/-- C2 (amended). The tokenizer maps the empty string to the empty sequence
and "The Quick-Fox!" to "quick", "fox"; it is case-insensitive (invariant
under pre-lowercasing, and "FOO" tokenizes like "foo"); and it agrees with
the specification's algorithm (lowercase, replace non-alphanumeric
non-whitespace by a space, split on whitespace runs, drop empties and the
32 stopwords). -/
theorem tokenize_spec_conformance :
    tokenize "" = [] ∧
    tokenize "The Quick-Fox!" = ["quick", "fox"] ∧
    tokenize "FOO" = tokenize "foo" ∧
    (∀ s : String, tokenize s = tokenize (pyLowerStr s)) ∧
    (∀ s : String, tokenize s = specTokenize s) := by
  refine ⟨by decide, by decide, by decide, ?_, tokenize_eq_specTokenize⟩
  intro s
  exact (tokenize_map_pyLower s).symm

theorem procText_vstr_get (s : String) (u : Val) (idx : PosIndex) :
    procText (Val.vstr s) u idx = some (indexTokensFrom u (tokenize s) 0 idx) := by
  unfold procText
  by_cases hs : s = ""
  · subst hs
    rw [show tokenize "" = [] from rfl]
    simp [Val.truthy, indexTokensFrom]
  · simp [Val.truthy, hs]
    rfl

/-- C3. Ingesting a record with a non-empty url, a string title and a string
description appends, for every token, exactly the zero-based positions at
which the token occurs in the tokenized field text, into the title index and
the description index respectively, under that url. -/
theorem positional_index_positions (url ts ds : String) (st : IndexState)
    (hurl : url ≠ "") :
    (∀ t, (_process_product (Val.vdict [("url", Val.vstr url), ("title", Val.vstr ts),
        ("description", Val.vstr ds)]) st).1.title_index t (Val.vstr url)
      = st.title_index t (Val.vstr url) ++ occPositions t (tokenize ts)) ∧
    (∀ t, (_process_product (Val.vdict [("url", Val.vstr url), ("title", Val.vstr ts),
        ("description", Val.vstr ds)]) st).1.description_index t (Val.vstr url)
      = st.description_index t (Val.vstr url) ++ occPositions t (tokenize ds)) := by
  have hres : _process_product (Val.vdict [("url", Val.vstr url), ("title", Val.vstr ts),
      ("description", Val.vstr ds)]) st
      = (⟨indexTokensFrom (Val.vstr url) (tokenize ts) 0 st.title_index,
          indexTokensFrom (Val.vstr url) (tokenize ds) 0 st.description_index,
          st.brand_index, st.origin_index,
          fun u' => if u' = Val.vstr url then some ⟨0, 0, 0⟩ else st.reviews_index u'⟩,
        true) := by
    simp [_process_product, dictGet, Val.truthy, hurl, procText_vstr_get, procCat, hasKey,
      getItem, procReviews, writeReview]
  rw [hres]
  constructor
  · intro t
    exact indexTokensFrom_get (Val.vstr url) (tokenize ts)
      (empty_not_mem_tokenize ts) 0 st.title_index t
  · intro t
    exact indexTokensFrom_get (Val.vstr url) (tokenize ds)
      (empty_not_mem_tokenize ds) 0 st.description_index t

/-- Witness for C3: title "red shoe red hat" under url "u1" puts token "red"
at positions 0 and 2. -/
theorem positional_index_positions_witness :
    (_process_product (Val.vdict [("url", Val.vstr "u1"),
        ("title", Val.vstr "red shoe red hat"), ("description", Val.vstr "")])
      emptyState).1.title_index "red" (Val.vstr "u1") = [0, 2] := by
  have h := (positional_index_positions "u1" "red shoe red hat" "" emptyState
    (by decide)).1 "red"
  rw [h]
  decide

theorem ratingsOf_mkReview (os : List (Option ℚ)) :
    ratingsOf (os.map mkReview) = some (os.map (fun o => Val.vnum (o.getD 0))) := by
  induction os with
  | nil => rfl
  | cons o os ih =>
    cases o with
    | none =>
      simp only [List.map_cons, ratingsOf, ratingOf, mkReview, ih]
      rfl
    | some q =>
      simp only [List.map_cons, ratingsOf, ratingOf, mkReview, ih]
      rfl

theorem asNums_map (qs : List ℚ) :
    asNums (qs.map Val.vnum) = some qs := by
  induction qs with
  | nil => rfl
  | cons q qs ih =>
    simp only [List.map_cons, asNums, ih]

theorem reviewStatsOf_mkReview (os : List (Option ℚ)) :
    reviewStatsOf (os.map mkReview)
      = some ⟨os.length,
          if os.isEmpty then 0
          else round2 ((os.map (fun o => o.getD 0)).sum / (os.length : ℚ)),
          ((os.map (fun o => o.getD 0)).getLast?).getD 0⟩ := by
  have hcomp : os.map (fun o => Val.vnum (o.getD 0))
      = (os.map (fun o => o.getD 0)).map Val.vnum :=
    (List.map_map _ _ _).symm
  unfold reviewStatsOf
  rw [ratingsOf_mkReview, hcomp]
  dsimp only
  rw [asNums_map]
  dsimp only
  simp [List.length_map, List.isEmpty_iff]

/-- C4. Ingesting a record with a non-empty url and a reviews list stores
total_reviews = number of reviews, mean_mark = the mean of the ratings
(missing rating fields counted as 0) rounded to two decimal places, and
last_rating = the last rating in input order; an empty reviews list yields
the zero record. -/
theorem review_stats_aggregation (url : String) (os : List (Option ℚ)) (st : IndexState)
    (hurl : url ≠ "") :
    (_process_product (Val.vdict [("url", Val.vstr url),
        ("product_reviews", Val.vlist (os.map mkReview))]) st).2 = true ∧
    (_process_product (Val.vdict [("url", Val.vstr url),
        ("product_reviews", Val.vlist (os.map mkReview))]) st).1.reviews_index
        (Val.vstr url)
      = some ⟨os.length,
          if os.isEmpty then 0
          else round2 ((os.map (fun o => o.getD 0)).sum / (os.length : ℚ)),
          ((os.map (fun o => o.getD 0)).getLast?).getD 0⟩ := by
  cases os with
  | nil =>
    constructor
    · simp [_process_product, dictGet, Val.truthy, hurl, procText, procCat, hasKey,
        getItem, procReviews, writeReview]
    · simp [_process_product, dictGet, Val.truthy, hurl, procText, procCat, hasKey,
        getItem, procReviews, writeReview]
  | cons o os' =>
    have hr := reviewStatsOf_mkReview (o :: os')
    simp only [List.map_cons] at hr
    constructor
    · simp [_process_product, dictGet, Val.truthy, hurl, procText, procCat, hasKey,
        getItem, procReviews, writeReview, hr]
    · simp [_process_product, dictGet, Val.truthy, hurl, procText, procCat, hasKey,
        getItem, procReviews, writeReview, hr]

/-- Witness for C4: ratings 3, 5, 4 give total_reviews 3, mean_mark 4.0,
last_rating 4; and an empty reviews list gives the zero record. -/
theorem review_stats_aggregation_witness :
    (_process_product (Val.vdict [("url", Val.vstr "u1"),
        ("product_reviews", Val.vlist ([some (3 : ℚ), some 5, some 4].map mkReview))])
      emptyState).1.reviews_index (Val.vstr "u1") = some ⟨3, 4, 4⟩ ∧
    (_process_product (Val.vdict [("url", Val.vstr "u2"),
        ("product_reviews", Val.vlist (([] : List (Option ℚ)).map mkReview))])
      emptyState).1.reviews_index (Val.vstr "u2") = some ⟨0, 0, 0⟩ := by
  constructor
  · have h := (review_stats_aggregation "u1" [some (3 : ℚ), some 5, some 4] emptyState
      (by decide)).2
    rw [h]
    norm_num [round2, roundHalfEven]
  · have h := (review_stats_aggregation "u2" ([] : List (Option ℚ)) emptyState
      (by decide)).2
    rw [h]
    norm_num

theorem procText_nonstr (v u : Val) (idx : PosIndex)
    (ht : v.truthy = true) (hv : ∀ s, v ≠ Val.vstr s) :
    procText v u idx = none := by
  unfold procText
  rw [ht]
  cases v with
  | vnone => rfl
  | vnum q => rfl
  | vstr s => exact absurd rfl (hv s)
  | vlist xs => rfl
  | vdict gs => rfl

theorem procCat_nonstr (f : Val) (k : String) (u : Val) (idx : CatIndex) (v : Val)
    (hk : hasKey f k = some true) (hi : getItem f k = some v)
    (hv : ∀ s, v ≠ Val.vstr s) :
    procCat f k u idx = some idx := by
  unfold procCat
  rw [hk, hi]
  cases v with
  | vnone => rfl
  | vnum q => rfl
  | vstr s => exact absurd rfl (hv s)
  | vlist xs => rfl
  | vdict gs => rfl

/-- C5 counterexample: with a present-but-malformed (truthy non-string)
title, the record's other fields are NOT indexed: the well-formed brand
"acme" is absent from the brand index, no review stats record is written
for "u1", and the record is reported as raising. -/
theorem nonstring_title_aborts_record :
    (_process_product (Val.vdict [("url", Val.vstr "u1"), ("title", Val.vnum 5),
      ("product_features", Val.vdict [("brand", Val.vstr "acme")])]) emptyState).2
        = false ∧
    (_process_product (Val.vdict [("url", Val.vstr "u1"), ("title", Val.vnum 5),
      ("product_features", Val.vdict [("brand", Val.vstr "acme")])])
        emptyState).1.brand_index "acme" = [] ∧
    (_process_product (Val.vdict [("url", Val.vstr "u1"), ("title", Val.vnum 5),
      ("product_features", Val.vdict [("brand", Val.vstr "acme")])])
        emptyState).1.reviews_index (Val.vstr "u1") = none := by
  refine ⟨by decide, by decide, by decide⟩

/-- C5 (amended). A present-but-wrong-shape value of an `isinstance`-guarded
categorical field (brand, origin) causes only that field to be skipped: the
title still indexes, the description stays untouched, both categorical
indexes are unchanged, the run reports no error, and the review stats
record is still written. (For title and description a truthy wrong-shape
value instead aborts the rest of the record; see C10.) -/
theorem nonstring_brand_origin_skipped (url ts : String) (bv ov : Val)
    (st : IndexState) (hurl : url ≠ "")
    (hbv : ∀ s, bv ≠ Val.vstr s) (hov : ∀ s, ov ≠ Val.vstr s) :
    (_process_product (Val.vdict [("url", Val.vstr url), ("title", Val.vstr ts),
        ("product_features", Val.vdict [("brand", bv), ("made in", ov)])]) st).2
        = true ∧
    (_process_product (Val.vdict [("url", Val.vstr url), ("title", Val.vstr ts),
        ("product_features", Val.vdict [("brand", bv), ("made in", ov)])])
        st).1.brand_index = st.brand_index ∧
    (_process_product (Val.vdict [("url", Val.vstr url), ("title", Val.vstr ts),
        ("product_features", Val.vdict [("brand", bv), ("made in", ov)])])
        st).1.origin_index = st.origin_index ∧
    (_process_product (Val.vdict [("url", Val.vstr url), ("title", Val.vstr ts),
        ("product_features", Val.vdict [("brand", bv), ("made in", ov)])])
        st).1.description_index = st.description_index ∧
    (∀ t, (_process_product (Val.vdict [("url", Val.vstr url), ("title", Val.vstr ts),
        ("product_features", Val.vdict [("brand", bv), ("made in", ov)])])
        st).1.title_index t (Val.vstr url)
      = st.title_index t (Val.vstr url) ++ occPositions t (tokenize ts)) ∧
    (_process_product (Val.vdict [("url", Val.vstr url), ("title", Val.vstr ts),
        ("product_features", Val.vdict [("brand", bv), ("made in", ov)])])
        st).1.reviews_index (Val.vstr url) = some ⟨0, 0, 0⟩ := by
  have hbrand : procCat (Val.vdict [("brand", bv), ("made in", ov)]) "brand"
      (Val.vstr url) st.brand_index = some st.brand_index :=
    procCat_nonstr _ _ _ _ bv (by simp [hasKey]) (by simp [getItem]) hbv
  have horigin : procCat (Val.vdict [("brand", bv), ("made in", ov)]) "made in"
      (Val.vstr url) st.origin_index = some st.origin_index :=
    procCat_nonstr _ _ _ _ ov (by simp [hasKey]) (by simp [getItem]) hov
  have hres : _process_product (Val.vdict [("url", Val.vstr url), ("title", Val.vstr ts),
      ("product_features", Val.vdict [("brand", bv), ("made in", ov)])]) st
      = (⟨indexTokensFrom (Val.vstr url) (tokenize ts) 0 st.title_index,
          st.description_index, st.brand_index, st.origin_index,
          fun u' => if u' = Val.vstr url then some ⟨0, 0, 0⟩ else st.reviews_index u'⟩,
        true) := by
    simp [_process_product, dictGet, Val.truthy, hurl, procText_vstr_get,
      hbrand, horigin, procReviews, writeReview,
      show tokenize "" = [] from rfl, indexTokensFrom]
  rw [hres]
  refine ⟨rfl, rfl, rfl, rfl, ?_, by simp⟩
  intro t
  exact indexTokensFrom_get (Val.vstr url) (tokenize ts)
    (empty_not_mem_tokenize ts) 0 st.title_index t

/-- Witness for C5 (amended): a numeric brand value and a list origin value
are skipped while title and review stats of the same record still land. -/
theorem nonstring_brand_origin_skipped_witness :
    (_process_product (Val.vdict [("url", Val.vstr "u1"), ("title", Val.vstr "blue shoe"),
        ("product_features", Val.vdict [("brand", Val.vnum 7),
          ("made in", Val.vlist [])])]) emptyState).2 = true ∧
    (_process_product (Val.vdict [("url", Val.vstr "u1"), ("title", Val.vstr "blue shoe"),
        ("product_features", Val.vdict [("brand", Val.vnum 7),
          ("made in", Val.vlist [])])]) emptyState).1.title_index "blue" (Val.vstr "u1")
      = [0] ∧
    (_process_product (Val.vdict [("url", Val.vstr "u1"), ("title", Val.vstr "blue shoe"),
        ("product_features", Val.vdict [("brand", Val.vnum 7),
          ("made in", Val.vlist [])])]) emptyState).1.reviews_index (Val.vstr "u1")
      = some ⟨0, 0, 0⟩ := by
  have h := nonstring_brand_origin_skipped "u1" "blue shoe" (Val.vnum 7) (Val.vlist [])
    emptyState (by decide) (fun s hs => Val.noConfusion hs) (fun s hs => Val.noConfusion hs)
  refine ⟨h.1, ?_, h.2.2.2.2.2⟩
  have ht := h.2.2.2.2.1 "blue"
  rw [ht]
  decide

/-- C10. Per-record recovery is not atomic: on a record with a good title
but a truthy non-string description, processing raises partway; the title
updates already made are retained, the remaining fields (here a well-formed
brand, and the review stats) produce no updates, the flag reports the raise,
and the batch continues with the next record from the partial state. -/
theorem record_error_partial_updates (url ts : String) (dv : Val)
    (st : IndexState) (rs : List Val) (hurl : url ≠ "")
    (hdv : dv.truthy = true) (hdvs : ∀ s, dv ≠ Val.vstr s) :
    (_process_product (Val.vdict [("url", Val.vstr url), ("title", Val.vstr ts),
        ("description", dv),
        ("product_features", Val.vdict [("brand", Val.vstr "acme")])]) st).2 = false ∧
    (∀ t, (_process_product (Val.vdict [("url", Val.vstr url), ("title", Val.vstr ts),
        ("description", dv),
        ("product_features", Val.vdict [("brand", Val.vstr "acme")])])
        st).1.title_index t (Val.vstr url)
      = st.title_index t (Val.vstr url) ++ occPositions t (tokenize ts)) ∧
    (_process_product (Val.vdict [("url", Val.vstr url), ("title", Val.vstr ts),
        ("description", dv),
        ("product_features", Val.vdict [("brand", Val.vstr "acme")])])
        st).1.brand_index = st.brand_index ∧
    (_process_product (Val.vdict [("url", Val.vstr url), ("title", Val.vstr ts),
        ("description", dv),
        ("product_features", Val.vdict [("brand", Val.vstr "acme")])])
        st).1.reviews_index = st.reviews_index ∧
    process_jsonl ((Val.vdict [("url", Val.vstr url), ("title", Val.vstr ts),
        ("description", dv),
        ("product_features", Val.vdict [("brand", Val.vstr "acme")])]) :: rs) st
      = process_jsonl rs ((_process_product (Val.vdict [("url", Val.vstr url),
          ("title", Val.vstr ts), ("description", dv),
          ("product_features", Val.vdict [("brand", Val.vstr "acme")])]) st).1) := by
  have hdesc : procText dv (Val.vstr url)
      (st.description_index) = none := procText_nonstr dv _ _ hdv hdvs
  have hres : _process_product (Val.vdict [("url", Val.vstr url), ("title", Val.vstr ts),
      ("description", dv),
      ("product_features", Val.vdict [("brand", Val.vstr "acme")])]) st
      = (⟨indexTokensFrom (Val.vstr url) (tokenize ts) 0 st.title_index,
          st.description_index, st.brand_index, st.origin_index, st.reviews_index⟩,
        false) := by
    simp [_process_product, dictGet, Val.truthy, hurl, procText_vstr_get, hdesc]
  rw [hres]
  refine ⟨rfl, ?_, rfl, rfl, ?_⟩
  · intro t
    exact indexTokensFrom_get (Val.vstr url) (tokenize ts)
      (empty_not_mem_tokenize ts) 0 st.title_index t
  · rw [show process_jsonl ((Val.vdict [("url", Val.vstr url), ("title", Val.vstr ts),
        ("description", dv),
        ("product_features", Val.vdict [("brand", Val.vstr "acme")])]) :: rs) st
      = process_jsonl rs ((_process_product (Val.vdict [("url", Val.vstr url),
          ("title", Val.vstr ts), ("description", dv),
          ("product_features", Val.vdict [("brand", Val.vstr "acme")])]) st).1)
      from rfl, hres]

/-- Witness for C10: with title "blue widget" and a numeric description,
token "widget" is retained at position 1 while the brand "acme" never lands
and no review stats record appears. -/
theorem record_error_partial_updates_witness :
    (_process_product (Val.vdict [("url", Val.vstr "u1"),
        ("title", Val.vstr "blue widget"), ("description", Val.vnum 1),
        ("product_features", Val.vdict [("brand", Val.vstr "acme")])])
      emptyState).2 = false ∧
    (_process_product (Val.vdict [("url", Val.vstr "u1"),
        ("title", Val.vstr "blue widget"), ("description", Val.vnum 1),
        ("product_features", Val.vdict [("brand", Val.vstr "acme")])])
      emptyState).1.title_index "widget" (Val.vstr "u1") = [1] ∧
    (_process_product (Val.vdict [("url", Val.vstr "u1"),
        ("title", Val.vstr "blue widget"), ("description", Val.vnum 1),
        ("product_features", Val.vdict [("brand", Val.vstr "acme")])])
      emptyState).1.brand_index "acme" = [] := by
  have h := record_error_partial_updates "u1" "blue widget" (Val.vnum 1) emptyState []
    (by decide) (by decide) (fun s hs => Val.noConfusion hs)
  refine ⟨h.1, ?_, ?_⟩
  · have ht := h.2.1 "widget"
    rw [ht]
    decide
  · rw [h.2.2.1]
    rfl

/-- Witness for C1 at a concrete query, index and document key. -/
theorem search_title_and_semantics_witness :
    (Val.vstr "u1" ∈ search_title "red"
      (fun t => if t = "red" then some [Val.vstr "u1"] else none)) ↔
    (tokenize "red" ≠ [] ∧ ∀ t ∈ tokenize "red", ∃ ps,
      (fun t' => if t' = "red" then some [Val.vstr "u1"] else none) t = some ps ∧
        Val.vstr "u1" ∈ ps) :=
  search_title_and_semantics "red"
    (fun t => if t = "red" then some [Val.vstr "u1"] else none) (Val.vstr "u1")

/-- Witness for C6 at a concrete record list and key. -/
theorem reviews_index_exactly_processed_witness :
    (process_jsonl [Val.vdict [("url", Val.vstr "u1")]] emptyState).reviews_index
        (Val.vstr "u1") ≠ none ↔
      ∃ r ∈ [Val.vdict [("url", Val.vstr "u1")]], recOk r = true ∧
        urlOf r = Val.vstr "u1" ∧ (urlOf r).truthy = true :=
  reviews_index_exactly_processed [Val.vdict [("url", Val.vstr "u1")]] (Val.vstr "u1")
